import Mathlib

/-!
Verification of the behavioural contract of the Advanced-Biostatistics
hands-on notebooks: the experience replay buffer, the epsilon-greedy action
selection, the DQN optimization step with soft target update, the training
loop push of transitions, and the SVM hinge loss.  Each Python construct is
shallowly embedded as a Lean definition; framework calls (autodiff, network
evaluation, random draws) are passed in as explicit parameters or oracles.
-/

namespace HandsOn

/-- One environment step, the namedtuple `Transition` with fields state,
action, reward and next_state.  The field `next_state` is `none` for the
Python `None` sentinel that marks a terminal transition. -/
structure Transition (S A R : Type) where
  state : S
  action : A
  reward : R
  next_state : Option S
  deriving DecidableEq, Repr

/-- The `ReplayMemory` class: `self.memory = deque([], maxlen=capacity)`.
The list holds the deque contents, oldest element first. -/
structure ReplayMemory (α : Type) where
  capacity : Nat
  memory : List α
  deriving DecidableEq, Repr

/-- Constructor `ReplayMemory(capacity)`: the deque starts empty. -/
def ReplayMemory.init (α : Type) (capacity : Nat) : ReplayMemory α :=
  ⟨capacity, []⟩

/-- Method `push`: `self.memory.append(Transition(*args))` on a deque with
`maxlen=capacity`, which appends at the tail and discards from the front
whatever exceeds `maxlen`. -/
def ReplayMemory.push (m : ReplayMemory α) (a : α) : ReplayMemory α :=
  { m with memory := (m.memory ++ [a]).drop ((m.memory ++ [a]).length - m.capacity) }

/-- Method `__len__`: `len(self.memory)`. -/
def ReplayMemory.size (m : ReplayMemory α) : Nat :=
  m.memory.length

/-- A sequence of `push` calls, oldest first. -/
def ReplayMemory.pushAll (m : ReplayMemory α) (ts : List α) : ReplayMemory α :=
  ts.foldl ReplayMemory.push m

theorem ReplayMemory.push_capacity (m : ReplayMemory α) (a : α) :
    (m.push a).capacity = m.capacity :=
  rfl

theorem ReplayMemory.push_memory (m : ReplayMemory α) (a : α) :
    (m.push a).memory = (m.memory ++ [a]).drop (m.memory.length + 1 - m.capacity) := by
  simp [ReplayMemory.push]

/-- Dropping down to the last `cap` elements commutes with later appends:
keeping only the last `cap` elements of `u`, appending `ts`, and keeping the
last `cap` elements again is the same as keeping the last `cap` elements of
`u ++ ts`. -/
theorem drop_to_cap_append (cap : Nat) (u ts : List α) :
    ((u.drop (u.length - cap)) ++ ts).drop
        (((u.drop (u.length - cap)) ++ ts).length - cap)
      = (u ++ ts).drop ((u ++ ts).length - cap) := by
  rw [List.drop_append_eq_append_drop, List.drop_append_eq_append_drop,
    List.drop_drop]
  simp only [List.length_append, List.length_drop]
  congr 2 <;> omega

theorem ReplayMemory.pushAll_memory :
    ∀ (ts : List α) (m : ReplayMemory α), m.memory.length ≤ m.capacity →
      (m.pushAll ts).memory
        = (m.memory ++ ts).drop ((m.memory ++ ts).length - m.capacity)
  | [], m, h => by
    simp [ReplayMemory.pushAll, Nat.sub_eq_zero_of_le h]
  | a :: ts, m, h => by
    have hstep : m.pushAll (a :: ts) = (m.push a).pushAll ts := rfl
    have hinv : (m.push a).memory.length ≤ (m.push a).capacity := by
      rw [ReplayMemory.push_memory, ReplayMemory.push_capacity, List.length_drop]
      simp only [List.length_append, List.length_singleton]
      omega
    rw [hstep, ReplayMemory.pushAll_memory ts (m.push a) hinv,
      ReplayMemory.push_memory, ReplayMemory.push_capacity]
    have := drop_to_cap_append m.capacity (m.memory ++ [a]) ts
    simp only [List.length_append, List.length_singleton] at this ⊢
    rw [this]
    simp only [List.append_nil, List.length_cons]
    rw [List.append_cons m.memory a ts]
    congr 1
    omega

/-- C1: pushing `capacity + k` transitions (k ≥ 0) into a replay buffer
leaves exactly the most recent `capacity` transitions, in their original
relative order; in particular pushing `a, b, c, d` into a fresh capacity-3
buffer leaves `[b, c, d]`, with `a` evicted. -/
theorem replay_retains_last_capacity {α : Type} (m : ReplayMemory α) (k : Nat)
    (ts : List α) (hm : m.memory.length ≤ m.capacity)
    (hts : ts.length = m.capacity + k) (a b c d : α) :
    (m.pushAll ts).memory = ts.drop k ∧
      ((ReplayMemory.init α 3).pushAll [a, b, c, d]).memory = [b, c, d] := by
  constructor
  · rw [ReplayMemory.pushAll_memory ts m hm, List.drop_append_eq_append_drop]
    have hlen : m.memory.length ≤ (m.memory ++ ts).length - m.capacity := by
      simp only [List.length_append]
      omega
    rw [List.drop_eq_nil_of_le hlen, List.nil_append]
    congr 1
    simp only [List.length_append]
    omega
  · rfl

/-- Closed witness for C1: capacity 2, four pushes, last two survive. -/
theorem replay_retains_last_capacity_witness :
    ((ReplayMemory.mk 2 ([] : List Nat)).pushAll [10, 20, 30, 40]).memory
        = [30, 40] ∧
      ((ReplayMemory.init Nat 3).pushAll [1, 2, 3, 4]).memory = [2, 3, 4] :=
  replay_retains_last_capacity (ReplayMemory.mk 2 ([] : List Nat)) 2
    [10, 20, 30, 40] (by decide) (by decide) 1 2 3 4

/-- C2: over any sequence of pushes the buffer size never exceeds the
capacity, and a push into a buffer exactly at (positive) capacity drops
exactly the oldest element, keeping the rest in order and appending the new
element at the tail. -/
theorem replay_capacity_invariant {α : Type} (m : ReplayMemory α)
    (ts : List α) (hm : m.memory.length ≤ m.capacity) :
    (m.pushAll ts).memory.length ≤ m.capacity ∧
      ∀ a : α, 0 < m.capacity → m.memory.length = m.capacity →
        (m.push a).memory = m.memory.tail ++ [a] := by
  constructor
  · rw [ReplayMemory.pushAll_memory ts m hm, List.length_drop]
    omega
  · intro a hpos hfull
    rw [ReplayMemory.push_memory, hfull]
    have h1 : m.capacity + 1 - m.capacity = 1 := by omega
    rw [h1, List.drop_append_of_le_length (by omega), List.drop_one]

/-- Closed witness for C2: capacity-2 buffer holding two elements. -/
theorem replay_capacity_invariant_witness :
    ((ReplayMemory.mk 2 [5, 6]).pushAll [7, 8, 9]).memory.length ≤ 2 ∧
      ∀ a : Nat, 0 < 2 → 2 = 2 →
        ((ReplayMemory.mk 2 [5, 6]).push a).memory = [6] ++ [a] := by
  have h := replay_capacity_invariant (ReplayMemory.mk 2 [5, 6]) [7, 8, 9]
    (by decide)
  exact ⟨h.1, fun a h1 h2 => h.2 a h1 rfl⟩

/-- Method `sample`: `return random.sample(self.memory, batch_size)`.  The random
choice is modelled by an oracle `idxs`, the list of buffer positions drawn;
`random.sample` guarantees `batch_size` pairwise-distinct valid positions and
raises `ValueError` otherwise (modelled as `none`).  The method only reads
`self.memory`; the buffer it leaves behind is the second component. -/
def ReplayMemory.sampleM (m : ReplayMemory α) (batch_size : Nat)
    (idxs : List Nat) : Option (List α) × ReplayMemory α :=
  (if idxs.length = batch_size ∧ idxs.Nodup ∧ ∀ i ∈ idxs, i < m.memory.length
    then some (idxs.filterMap fun i => m.memory[i]?)
    else none, m)

theorem filterMap_getElem_eq_pmap (l : List α) :
    ∀ (idxs : List Nat) (hset : ∀ i ∈ idxs, i < l.length),
      (idxs.filterMap fun i => l[i]?)
        = (idxs.pmap (fun i h => (⟨i, h⟩ : Fin l.length)) hset).map
            fun i => l[i]
  | [], _ => rfl
  | i :: idxs, hset => by
    have hi : i < l.length := hset i (List.mem_cons_self i idxs)
    simp only [List.filterMap_cons, List.getElem?_eq_getElem hi, List.pmap,
      List.map_cons]
    exact congrArg _
      (filterMap_getElem_eq_pmap l idxs fun j hj =>
        hset j (List.mem_cons_of_mem i hj))

/-- Reading a list at pairwise-distinct positions yields, up to reordering, a
sublist of the list. -/
theorem map_getElem_nodup_perm_sublist {α : Type} (l : List α)
    (is : List (Fin l.length)) (hnd : is.Nodup) :
    ∃ sub : List α, sub.Sublist l ∧ (is.map fun i => l[i]).Perm sub := by
  have hperm : (is.mergeSort (fun a b => decide (a.val ≤ b.val))).Perm is :=
    List.mergeSort_perm is _
  have hsorted :
      (is.mergeSort (fun a b => decide (a.val ≤ b.val))).Pairwise
        fun a b => decide (a.val ≤ b.val) := by
    apply List.sorted_mergeSort
    · intro a b c hab hbc
      simp only [decide_eq_true_eq] at hab hbc ⊢
      omega
    · intro a b
      simp only [Bool.or_eq_true, decide_eq_true_eq]
      omega
  have hndm : (is.mergeSort (fun a b => decide (a.val ≤ b.val))).Nodup :=
    hperm.symm.nodup hnd
  have hlt :
      (is.mergeSort (fun a b => decide (a.val ≤ b.val))).Pairwise
        fun a b => a < b := by
    refine (hsorted.and hndm).imp ?_
    intro a b hab
    obtain ⟨h1, h2⟩ := hab
    simp only [decide_eq_true_eq] at h1
    exact lt_of_le_of_ne (Fin.le_def.mpr h1) h2
  exact ⟨(is.mergeSort (fun a b => decide (a.val ≤ b.val))).map fun i => l[i],
    List.map_getElem_sublist hlt, (hperm.map fun i => l[i]).symm⟩

/-- C3: with `b ≤ size` (and a well-formed random draw `idxs`), `sample(b)`
succeeds and returns exactly `b` transitions read at pairwise-distinct buffer
positions — a permutation of a sublist of the contents, hence each returned
element is in the buffer — and the buffer itself is left unchanged. -/
theorem sample_returns_batch_nondestructive {α : Type} (m : ReplayMemory α)
    (b : Nat) (idxs : List Nat) (hb : b ≤ m.size) (hlen : idxs.length = b)
    (hnd : idxs.Nodup) (hbound : ∀ i ∈ idxs, i < m.memory.length) :
    ∃ out : List α,
      (m.sampleM b idxs).1 = some out ∧
      out.length = b ∧
      (∀ x ∈ out, x ∈ m.memory) ∧
      (∃ sub : List α, sub.Sublist m.memory ∧ out.Perm sub) ∧
      (m.sampleM b idxs).2 = m := by
  refine ⟨idxs.filterMap fun i => m.memory[i]?, ?_, ?_, ?_, ?_, rfl⟩
  · simp only [ReplayMemory.sampleM]
    rw [if_pos ⟨hlen, hnd, hbound⟩]
  · rw [filterMap_getElem_eq_pmap m.memory idxs hbound]
    simp only [List.length_map, List.length_pmap]
    exact hlen
  · intro x hx
    rw [filterMap_getElem_eq_pmap m.memory idxs hbound] at hx
    obtain ⟨i, _, rfl⟩ := List.mem_map.mp hx
    exact List.getElem_mem i.isLt
  · rw [filterMap_getElem_eq_pmap m.memory idxs hbound]
    refine map_getElem_nodup_perm_sublist m.memory _ (hnd.pmap ?_)
    intro x hx y hy hxy
    simpa using congrArg Fin.val hxy

/-- Closed witness for C3: a capacity-3 buffer holding `[4, 5, 6]`, sampling
2 elements at positions 2 and 0. -/
theorem sample_returns_batch_witness :
    ∃ out : List Nat,
      ((ReplayMemory.mk 3 [4, 5, 6]).sampleM 2 [2, 0]).1 = some out ∧
      out.length = 2 ∧
      (∀ x ∈ out, x ∈ (ReplayMemory.mk 3 [4, 5, 6]).memory) ∧
      (∃ sub : List Nat,
        sub.Sublist (ReplayMemory.mk 3 [4, 5, 6]).memory ∧ out.Perm sub) ∧
      ((ReplayMemory.mk 3 [4, 5, 6]).sampleM 2 [2, 0]).2
        = ReplayMemory.mk 3 [4, 5, 6] :=
  sample_returns_batch_nondestructive (ReplayMemory.mk 3 [4, 5, 6]) 2 [2, 0]
    (by decide) (by decide) (by decide) (by decide)

/-- The exploration threshold of `select_action`:
`eps_threshold = EPS_END + (EPS_START - EPS_END) * math.exp(-1. * steps_done / EPS_DECAY)`,
as a function of the (real-valued) step count. -/
noncomputable def eps_threshold (EPS_START EPS_END EPS_DECAY : ℝ) (t : ℝ) : ℝ :=
  EPS_END + (EPS_START - EPS_END) * Real.exp (-1 * t / EPS_DECAY)

/-- Function `select_action(state)`: draws `sample = random.random()`, computes
`eps_threshold` from the current `steps_done`, increments `steps_done`, and
returns the greedy action `policy_net(state).max(dim=1)[1]` when
`sample > eps_threshold`, else the random action
`env.action_space.sample()`.  The two framework calls are passed in as
`greedyAction` and `randomAction`; the function returns the chosen action
together with the updated `steps_done`. -/
noncomputable def select_action (EPS_START EPS_END EPS_DECAY : ℝ)
    (sample : ℝ) (greedyAction randomAction : Nat) (steps_done : Nat) :
    Nat × Nat :=
  let eps := eps_threshold EPS_START EPS_END EPS_DECAY steps_done
  let steps_done' := steps_done + 1
  (if sample > eps then greedyAction else randomAction, steps_done')

/-- C7: the threshold used by action selection at step `t` is exactly
`ε_end + (ε_start − ε_end) · exp(−t / ε_decay)`; for
`ε_start > ε_end > 0` and `ε_decay > 0` it starts at `ε_start`, is strictly
decreasing, stays in `(ε_end, ε_start]` for `t ≥ 0`, and tends to `ε_end` as
`t → ∞`. -/
theorem eps_threshold_decay (es ee d : ℝ) (h1 : ee < es) (h2 : 0 < d)
    (h3 : 0 < ee) :
    (∀ (sample : ℝ) (g r sd : Nat),
        select_action es ee d sample g r sd
          = (if sample > ee + (es - ee) * Real.exp (-1 * sd / d) then g else r,
              sd + 1)) ∧
    eps_threshold es ee d 0 = es ∧
    StrictAnti (eps_threshold es ee d) ∧
    (∀ t : ℝ, ee < eps_threshold es ee d t) ∧
    (∀ t : ℝ, 0 ≤ t → eps_threshold es ee d t ≤ es) ∧
    Filter.Tendsto (eps_threshold es ee d) Filter.atTop (nhds ee) := by
  have hpos : (0 : ℝ) < es - ee := sub_pos.mpr h1
  refine ⟨fun _ _ _ _ => rfl, ?_, ?_, ?_, ?_, ?_⟩
  · have h0 : (-1 : ℝ) * 0 / d = 0 := by ring
    rw [eps_threshold, h0, Real.exp_zero]
    ring
  · intro t1 t2 h
    unfold eps_threshold
    have hd : -1 * t2 / d < -1 * t1 / d :=
      (div_lt_div_iff_of_pos_right h2).mpr (by linarith)
    have := Real.exp_lt_exp.mpr hd
    nlinarith
  · intro t
    unfold eps_threshold
    have := mul_pos hpos (Real.exp_pos (-1 * t / d))
    linarith
  · intro t ht
    unfold eps_threshold
    have harg : -1 * t / d ≤ 0 := by
      have h0 : 0 ≤ t / d := div_nonneg ht h2.le
      have h0eq : -1 * t / d = -(t / d) := by ring
      linarith [h0eq ▸ neg_nonpos.mpr h0]
    have hexp : Real.exp (-1 * t / d) ≤ 1 := Real.exp_le_one_iff.mpr harg
    nlinarith
  · have hexp : Filter.Tendsto (fun t : ℝ => Real.exp (-1 * t / d))
        Filter.atTop (nhds 0) :=
      Real.tendsto_exp_atBot.comp
        ((Filter.tendsto_id.const_mul_atTop_of_neg (by norm_num)).atBot_div_const h2)
    have hfull := (hexp.const_mul (es - ee)).const_add ee
    simp only [mul_zero, add_zero] at hfull
    have hfun : eps_threshold es ee d
        = fun t => ee + (es - ee) * Real.exp (-1 * t / d) := rfl
    rw [hfun]
    exact hfull

/-- Closed witness for C7 at the notebook hyper-parameters
`EPS_START = 0.9`, `EPS_END = 0.1`, `EPS_DECAY = 10000`. -/
theorem eps_threshold_decay_witness :
    (∀ (sample : ℝ) (g r sd : Nat),
        select_action 0.9 0.1 10000 sample g r sd
          = (if sample > 0.1 + (0.9 - 0.1) * Real.exp (-1 * sd / 10000)
              then g else r, sd + 1)) ∧
    eps_threshold 0.9 0.1 10000 0 = 0.9 ∧
    StrictAnti (eps_threshold 0.9 0.1 10000) ∧
    (∀ t : ℝ, 0.1 < eps_threshold 0.9 0.1 10000 t) ∧
    (∀ t : ℝ, 0 ≤ t → eps_threshold 0.9 0.1 10000 t ≤ 0.9) ∧
    Filter.Tendsto (eps_threshold 0.9 0.1 10000) Filter.atTop (nhds 0.1) :=
  eps_threshold_decay 0.9 0.1 10000 (by norm_num) (by norm_num) (by norm_num)

/-- C8: every call to `select_action` increments the shared `steps_done`
counter by exactly 1, whichever branch is taken, and the only other effect
is returning one of the two candidate actions. -/
theorem select_action_increments (es ee d sample : ℝ) (g r sd : Nat) :
    (select_action es ee d sample g r sd).2 = sd + 1 ∧
      ((select_action es ee d sample g r sd).1 = g ∨
        (select_action es ee d sample g r sd).1 = r) := by
  unfold select_action
  refine ⟨rfl, ?_⟩
  by_cases h : sample > eps_threshold es ee d sd
  · exact Or.inl (by simp [h])
  · exact Or.inr (by simp [h])

/-- The state read and written by `optimize_model`: the replay memory, the
policy network parameters and the target network parameters (each state_dict
flattened to a list of entries, in a fixed key order shared by the two
networks, which have identical architecture). -/
structure OptState (S A : Type) where
  memory : ReplayMemory (Transition S A ℚ)
  policy_net : List ℚ
  target_net : List ℚ
  deriving DecidableEq

/-- Per-transition expected Q-value of `optimize_model`:
`expected_state_action_values = (next_state_values * GAMMA) + reward_batch`,
where `next_state_values` is `0` for a final state (next state `None`) and
`target_net(non_final_next_states).max(dim=1)[0]` otherwise.  The target
network evaluation `max_a target_net(s, a)` is the framework call
`targetMaxQ`. -/
def expected_state_action_value {S A : Type} (GAMMA : ℚ) (targetMaxQ : S → ℚ)
    (tr : Transition S A ℚ) : ℚ :=
  (match tr.next_state with
    | none => 0
    | some s => targetMaxQ s) * GAMMA + tr.reward

/-- The soft update loop of `optimize_model`:
`target_net_state_dict[key] = policy_net_state_dict[key]*TAU + target_net_state_dict[key]*(1-TAU)`
for every key, elementwise over the two parameter lists. -/
def soft_update (TAU : ℚ) (policy target : List ℚ) : List ℚ :=
  List.zipWith (fun p t => p * TAU + t * (1 - TAU)) policy target

/-- Function `optimize_model()`.  Guard: `if len(memory) < BATCH_SIZE: return`.
Otherwise it samples a batch (`idxs` is the randomness oracle of
`random.sample`; an invalid oracle is the fail-fast `ValueError`, returned
as `none`), computes the expected state-action values, runs the framework
pipeline — Huber loss against `policy_net(state).gather(...)`, backward,
in-place gradient clipping to 100, `optimizer.step()` — abstracted as
`gradStep` from the current policy parameters and the expected values to the
updated policy parameters, and finally soft-updates the target network. -/
def optimize_model {S A : Type} (BATCH_SIZE : Nat) (GAMMA TAU : ℚ)
    (targetMaxQ : List ℚ → S → ℚ) (gradStep : List ℚ → List ℚ → List ℚ)
    (idxs : List Nat) (st : OptState S A) : Option (OptState S A) :=
  if st.memory.size < BATCH_SIZE then some st
  else
    match (st.memory.sampleM BATCH_SIZE idxs).1 with
    | none => none
    | some transitions =>
      let expected := transitions.map
        (expected_state_action_value GAMMA (targetMaxQ st.target_net))
      let policy' := gradStep st.policy_net expected
      let target' := soft_update TAU policy' st.target_net
      some { memory := (st.memory.sampleM BATCH_SIZE idxs).2,
             policy_net := policy', target_net := target' }

/-- C4: when the buffer holds fewer than `BATCH_SIZE` transitions the
optimization step returns immediately: the buffer and both parameter sets
are unchanged and no exception is raised (`some st`, not `none`). -/
theorem optimize_noop_when_small {S A : Type} (BATCH_SIZE : Nat)
    (GAMMA TAU : ℚ) (targetMaxQ : List ℚ → S → ℚ)
    (gradStep : List ℚ → List ℚ → List ℚ) (idxs : List Nat)
    (st : OptState S A) (h : st.memory.size < BATCH_SIZE) :
    optimize_model BATCH_SIZE GAMMA TAU targetMaxQ gradStep idxs st
      = some st := by
  simp [optimize_model, h]

/-- Closed witness for C4: empty capacity-10 buffer, batch size 5. -/
theorem optimize_noop_when_small_witness :
    optimize_model 5 (99/100) (5/1000) (fun _ _ => 0) (fun p _ => p) []
        (⟨ReplayMemory.mk 10 [], [1, 2], [3, 4]⟩ : OptState Unit Unit)
      = some ⟨ReplayMemory.mk 10 [], [1, 2], [3, 4]⟩ :=
  optimize_noop_when_small 5 (99/100) (5/1000) (fun _ _ => 0) (fun p _ => p)
    [] ⟨ReplayMemory.mk 10 [], [1, 2], [3, 4]⟩ (by decide)

/-- C5: the expected value of a terminal transition (next state `None`) is
its reward alone, independent of the target network output; for a
non-terminal transition it is `reward + GAMMA * max_a target_net(s', a)`. -/
theorem target_value_terminal_vs_bootstrap {S A : Type} (GAMMA : ℚ)
    (f g : S → ℚ) (tr : Transition S A ℚ) :
    (tr.next_state = none →
      expected_state_action_value GAMMA f tr = tr.reward ∧
      expected_state_action_value GAMMA f tr
        = expected_state_action_value GAMMA g tr) ∧
    (∀ s : S, tr.next_state = some s →
      expected_state_action_value GAMMA f tr = tr.reward + GAMMA * f s) := by
  constructor
  · intro hnone
    simp [expected_state_action_value, hnone]
  · intro s hsome
    simp only [expected_state_action_value, hsome]
    ring

/-- Closed witness for C5: a terminal and a non-terminal transition with
reward 7, discount 2, target output 5. -/
theorem target_value_terminal_vs_bootstrap_witness :
    (expected_state_action_value (S := Unit) (A := Unit) 2 (fun _ => 5)
        ⟨(), (), 7, none⟩ = 7 ∧
      expected_state_action_value (S := Unit) (A := Unit) 2 (fun _ => 5)
          ⟨(), (), 7, none⟩
        = expected_state_action_value (S := Unit) (A := Unit) 2 (fun _ => 9)
            ⟨(), (), 7, none⟩) ∧
    expected_state_action_value (S := Unit) (A := Unit) 2 (fun _ => 5)
        ⟨(), (), 7, some ()⟩ = 7 + 2 * 5 :=
  ⟨(target_value_terminal_vs_bootstrap 2 (fun _ => 5) (fun _ => 9)
      ⟨(), (), 7, none⟩).1 rfl,
    (target_value_terminal_vs_bootstrap 2 (fun _ => 5) (fun _ => 9)
      ⟨(), (), 7, some ()⟩).2 () rfl⟩

theorem soft_update_getD (TAU : ℚ) :
    ∀ (p t : List ℚ) (i : Nat), i < p.length → i < t.length →
      (soft_update TAU p t).getD i 0
        = p.getD i 0 * TAU + t.getD i 0 * (1 - TAU)
  | [], _, _, hp, _ => absurd hp (by simp)
  | _ :: _, [], _, _, ht => absurd ht (by simp)
  | a :: p, b :: t, 0, _, _ => rfl
  | a :: p, b :: t, i + 1, hp, ht =>
    soft_update_getD TAU p t i (by simpa using hp) (by simpa using ht)

theorem soft_update_one :
    ∀ p t : List ℚ, p.length = t.length → soft_update 1 p t = p
  | [], [], _ => rfl
  | [], _ :: _, h => by simp at h
  | _ :: _, [], h => by simp at h
  | a :: p, b :: t, h => by
    show (a * 1 + b * (1 - 1)) :: soft_update 1 p t = a :: p
    rw [soft_update_one p t (by simpa using h)]
    norm_num

/-- C6: after an optimization step that passes the size gate, each target
network entry equals `TAU` times the corresponding just-updated policy entry
plus `(1 - TAU)` times its previous value; with `TAU = 1` the update is an
exact copy of the policy parameters. -/
theorem soft_update_after_optimize {S A : Type} (BATCH_SIZE : Nat)
    (GAMMA TAU : ℚ) (targetMaxQ : List ℚ → S → ℚ)
    (gradStep : List ℚ → List ℚ → List ℚ) (idxs : List Nat)
    (st st' : OptState S A) (hgate : ¬ st.memory.size < BATCH_SIZE)
    (hrun : optimize_model BATCH_SIZE GAMMA TAU targetMaxQ gradStep idxs st
      = some st') :
    (∀ i : Nat, i < st'.policy_net.length → i < st.target_net.length →
      st'.target_net.getD i 0
        = TAU * st'.policy_net.getD i 0
            + (1 - TAU) * st.target_net.getD i 0) ∧
    (TAU = 1 → st'.policy_net.length = st.target_net.length →
      st'.target_net = st'.policy_net) := by
  rw [optimize_model, if_neg hgate] at hrun
  rcases hs : (st.memory.sampleM BATCH_SIZE idxs).1 with _ | transitions
  · rw [hs] at hrun
    simp at hrun
  · rw [hs] at hrun
    simp only [Option.some.injEq] at hrun
    have htar : st'.target_net = soft_update TAU st'.policy_net st.target_net := by
      rw [← hrun]
    constructor
    · intro i hip hit
      rw [htar, soft_update_getD TAU st'.policy_net st.target_net i hip hit]
      ring
    · intro h1 hlen
      rw [htar, h1, soft_update_one st'.policy_net st.target_net hlen]

/-- Closed witness for C6: batch size 1, one stored transition, identity
gradient step, `TAU = 1`; the target network becomes a copy of the policy
network. -/
theorem soft_update_after_optimize_witness :
    (∀ i : Nat, i < ([1, 2] : List ℚ).length → i < ([4, 6] : List ℚ).length →
      ([1, 2] : List ℚ).getD i 0
        = (1 : ℚ) * ([1, 2] : List ℚ).getD i 0
            + (1 - 1) * ([4, 6] : List ℚ).getD i 0) ∧
    ((1 : ℚ) = 1 → ([1, 2] : List ℚ).length = ([4, 6] : List ℚ).length →
      ([1, 2] : List ℚ) = [1, 2]) := by
  have hrun : optimize_model (S := Unit) (A := Unit) 1 (99/100) 1
      (fun _ _ => 0) (fun p _ => p) [0]
      ⟨ReplayMemory.mk 1 [⟨(), (), 3, none⟩], [1, 2], [4, 6]⟩
      = some ⟨ReplayMemory.mk 1 [⟨(), (), 3, none⟩], [1, 2], [1, 2]⟩ := by
    show (some ⟨ReplayMemory.mk 1 [⟨(), (), 3, none⟩], [1, 2],
        soft_update 1 [1, 2] [4, 6]⟩ : Option (OptState Unit Unit)) = _
    norm_num [soft_update]
  have h := soft_update_after_optimize (S := Unit) (A := Unit) 1 (99/100) 1
    (fun _ _ => 0) (fun p _ => p) [0]
    ⟨ReplayMemory.mk 1 [⟨(), (), 3, none⟩], [1, 2], [4, 6]⟩
    ⟨ReplayMemory.mk 1 [⟨(), (), 3, none⟩], [1, 2], [1, 2]⟩
    (by decide) hrun
  exact h

/-- The SVM model `model = nn.Linear(28*28, 1)` applied to one flattened
input: the dot product of the weight row with the features plus the bias. -/
def linear_forward (w : List ℚ) (b : ℚ) (x : List ℚ) : ℚ :=
  (List.zipWith (fun wi xi => wi * xi) w x).sum + b

/-- The SVM batch loss of the training loop:
`loss = torch.sum(torch.clamp(1 - yHat.t()*y, min = 0))`, elementwise over
the predictions `yHat` and the labels `y` of the batch. -/
def svm_batch_loss (yHat ys : List ℚ) : ℚ :=
  (List.zipWith (fun p y => max 0 (1 - p * y)) yHat ys).sum

/-- Hinge loss `max(0, 1 - y * f(x))`, as the specification states it. -/
def hinge_loss (y fx : ℚ) : ℚ :=
  max 0 (1 - y * fx)

theorem svm_batch_loss_eq_sum :
    ∀ yHat ys : List ℚ,
      svm_batch_loss yHat ys
        = ((yHat.zip ys).map fun py => hinge_loss py.2 py.1).sum
  | [], _ => by cases ‹List ℚ› <;> rfl
  | _ :: _, [] => rfl
  | p :: yHat, y :: ys => by
    have h1 : svm_batch_loss (p :: yHat) (y :: ys)
        = max 0 (1 - p * y) + svm_batch_loss yHat ys := by
      simp [svm_batch_loss]
    have h2 : (((p :: yHat).zip (y :: ys)).map fun py => hinge_loss py.2 py.1).sum
        = max 0 (1 - y * p)
          + ((yHat.zip ys).map fun py => hinge_loss py.2 py.1).sum := by
      simp [hinge_loss]
    rw [h1, h2, ← svm_batch_loss_eq_sum yHat ys, mul_comm p y]

/-- C9: the loss computed for a batch by the SVM training loop equals the sum
over the batch of the hinge loss `max(0, 1 - y * f(x))`, with `f(x)` the
linear model prediction on input `x` and `y` the paired label. -/
theorem svm_loss_is_sum_of_hinge (w : List ℚ) (b : ℚ) (xs : List (List ℚ))
    (ys : List ℚ) :
    svm_batch_loss (xs.map (linear_forward w b)) ys
      = (((xs.map (linear_forward w b)).zip ys).map
          fun py => hinge_loss py.2 py.1).sum :=
  svm_batch_loss_eq_sum (xs.map (linear_forward w b)) ys

/-- The `next_state` stored by the RL training loop:
`if terminated: next_state = None else: next_state = torch.tensor(observation)`. -/
def loop_next_state {S : Type} (terminated : Bool) (observation : S) :
    Option S :=
  if terminated then none else some observation

/-- One buffer interaction of the RL training loop body: after
`env.step(action)` returns `(observation, reward, terminated, truncated, _)`
the loop runs `memory.push(state, action, reward, next_state)`;
`truncated` only enters `done` and is not consulted when building the stored
transition. -/
def loop_store_transition {S A : Type} (m : ReplayMemory (Transition S A ℚ))
    (state : S) (action : A) (reward : ℚ) (observation : S)
    (terminated truncated : Bool) : ReplayMemory (Transition S A ℚ) :=
  m.push ⟨state, action, reward, loop_next_state terminated observation⟩

theorem ReplayMemory.push_getLast (m : ReplayMemory α) (a : α)
    (h : 0 < m.capacity) :
    (m.push a).memory.getLast? = some a := by
  rw [ReplayMemory.push_memory, List.drop_append_eq_append_drop]
  have h0 : m.memory.length + 1 - m.capacity - m.memory.length = 0 := by omega
  rw [h0, List.drop_zero, List.getLast?_concat]

/-- C10: the transition pushed by the training loop carries the terminal
sentinel (`none`) exactly when the environment step reported `terminated`;
on truncation without termination the stored next state is the real observed
one, and such a transition is bootstrapped by the optimization step like any
non-terminal transition. -/
theorem pushed_transition_terminal_iff {S A : Type}
    (m : ReplayMemory (Transition S A ℚ)) (hcap : 0 < m.capacity) (state : S)
    (action : A) (reward : ℚ) (observation : S)
    (terminated truncated : Bool) (GAMMA : ℚ) (targetMaxQ : S → ℚ) :
    ∃ tr : Transition S A ℚ,
      (loop_store_transition m state action reward observation terminated
        truncated).memory.getLast? = some tr ∧
      (tr.next_state = none ↔ terminated = true) ∧
      (terminated = false →
        tr.next_state = some observation ∧
        expected_state_action_value GAMMA targetMaxQ tr
          = targetMaxQ observation * GAMMA + reward) := by
  refine ⟨⟨state, action, reward, loop_next_state terminated observation⟩,
    ReplayMemory.push_getLast m _ hcap, ?_, ?_⟩
  · cases terminated <;> simp [loop_next_state]
  · intro hterm
    subst hterm
    exact ⟨rfl, rfl⟩

/-- Closed witness for C10: capacity-5 buffer, an episode step that was
truncated but not terminated; the stored transition keeps the observed next
state. -/
theorem pushed_transition_terminal_iff_witness :
    ∃ tr : Transition Nat Nat ℚ,
      (loop_store_transition (ReplayMemory.mk 5 []) 8 1 2 9 false
        true).memory.getLast? = some tr ∧
      (tr.next_state = none ↔ false = true) ∧
      (false = false →
        tr.next_state = some 9 ∧
        expected_state_action_value 3 (fun _ => 4) tr = 4 * 3 + 2) :=
  pushed_transition_terminal_iff (ReplayMemory.mk 5 []) (by decide) 8 1 2 9
    false true 3 (fun _ => 4)

end HandsOn
